import Mathlib

/-!
Shallow embedding of the cointegrated-pairs screening program
(`pairs_trading.py`) and proofs about the claims of its specification.

The statistical kernel `statsmodels.tsa.stattools.coint` is a numerical
library routine operating on floating point data; it is modelled as an
abstract parameter `CointFn` returning either a (score, pvalue) pair or an
error (an exception).  Everything structural around it — the eligibility
guards, the per-pair exception handling, the enumeration of column pairs,
the parallel collection, the stable sort, the top-K cut, the CSV record
construction and the interactive symbol lookup — is embedded faithfully
from the source.

Python floats are modelled as rationals; the nondeterministic
`as_completed` iteration order of the thread pool is modelled as an
explicit `order` argument, constrained (in theorem hypotheses) to be a
permutation of the enumerated pair list.  Python's `list.sort` is stable;
it is modelled by `List.insertionSort`, which is a stable sort.
-/

-- Rational arithmetic is sealed in the library; concrete witnesses and
-- counterexamples below evaluate it in the kernel, so it is unsealed here.
set_option allowUnsafeReducibility true in
attribute [semireducible] Rat.add Rat.mul Rat.sub Rat.inv Rat.div Rat.neg

namespace PairsTrading

/-- Mirror of the `Config` dataclass (lines 20-35 of the source), with
floats as rationals.  Fields not used by the modelled code paths are kept
for faithfulness. -/
structure Config where
  timeframe : String := "4h"
  days : ℕ := 90
  coint_threshold : ℚ := 5 / 100
  market_type : String := "future"
  output_file : String := "pairs_to_trade.csv"
  min_open_interest : ℚ := 50000000
  min_volume : ℚ := 500000000
  enable_volume_filt : Bool := false
  enable_open_interest_filt : Bool := false
  top_n_pairs : ℕ := 10
  max_workers : ℕ := 8
  min_data_points : ℕ := 50
  rate_limit_sleep : ℚ := 1 / 10

/-- Arithmetic mean of a list of rationals (`Series.mean`).  Empty list
gives `0` by the `x / 0 = 0` convention of `ℚ`. -/
def mean (xs : List ℚ) : ℚ := xs.sum / (xs.length : ℚ)

/-- `pandas.Series.var()` with the default `ddof = 1`: sum of squared
deviations from the mean divided by `n - 1`. -/
def var (xs : List ℚ) : ℚ :=
  (xs.map (fun x => (x - mean xs) ^ 2)).sum / ((xs.length : ℚ) - 1)

/-- `np.isclose(a, 0)`: `|a - 0| ≤ atol + rtol * |0|` with the numpy
defaults `atol = 1e-8`, `rtol = 1e-5`, hence `|a| ≤ 1e-8`. -/
def npIsCloseZero (a : ℚ) : Bool := decide (|a| ≤ 1 / 100000000)

/-- A column of the aligned close-price matrix: symbol and price series. -/
abbrev Column := String × List ℚ

/-- One row of the result list, `(*pair, pvalue, score)` as built on line
175 of the source: (symbolA, symbolB, pvalue, score). -/
abbrev PairRes := String × String × ℚ × ℚ

/-- The p-value component of a result tuple (`x[2]` in the source). -/
def pvalueOf (r : PairRes) : ℚ := r.2.2.1

/-- The score component of a result tuple (`x[3]` in the source). -/
def scoreOf (r : PairRes) : ℚ := r.2.2.2

/-- Abstract model of `statsmodels.tsa.stattools.coint(s1, s2, autolag='BIC')`:
returns `(score, pvalue)` on success, or an error standing for a raised
exception. -/
abbrev CointFn := List ℚ → List ℚ → Except String (ℚ × ℚ)

/-- `PairsAnalyzer.calculate_cointegration` (lines 149-161): guard on
series length, guard on (approximately) zero variance, then the library
call with any exception caught and converted to `None`. -/
def calculate_cointegration (cfg : Config) (coint : CointFn)
    (series1 series2 : List ℚ) : Option (ℚ × ℚ) :=
  if series1.length < cfg.min_data_points ∨ series2.length < cfg.min_data_points then
    none
  else if npIsCloseZero (var series1) || npIsCloseZero (var series2) then
    none
  else
    match coint series1 series2 with
    | .ok scorePvalue => some scorePvalue
    | .error _ => none

/-- `itertools.combinations(l, 2)` in its enumeration order: the first
element varies slowest. -/
def combinations2 {α : Type} : List α → List (α × α)
  | [] => []
  | x :: xs => (xs.map (fun y => (x, y))) ++ combinations2 xs

/-- The body of the collection loop of `analyze_pairs` (lines 171-175):
a completed job contributes `(symA, symB, pvalue, score)` exactly when the
test returned a result and its p-value is below the threshold. -/
def collectStep (cfg : Config) (coint : CointFn) (p : Column × Column) :
    Option PairRes :=
  match calculate_cointegration cfg coint p.1.2 p.2.2 with
  | some r => if r.2 < cfg.coint_threshold then some (p.1.1, p.2.1, r.2, r.1) else none
  | none => none

/-- The comparison used by `results.sort(key=lambda x: x[2])`: ordering of
result tuples by p-value. -/
def pvLe (a b : PairRes) : Prop := pvalueOf a ≤ pvalueOf b

instance : DecidableRel pvLe := fun a b =>
  inferInstanceAs (Decidable (pvalueOf a ≤ pvalueOf b))

instance : IsTotal PairRes pvLe := ⟨fun a b => le_total (pvalueOf a) (pvalueOf b)⟩

instance : IsTrans PairRes pvLe := ⟨fun _ _ _ h1 h2 => le_trans h1 h2⟩

/-- `PairsAnalyzer.analyze_pairs` (lines 163-178).  `order` is the
sequence in which `as_completed` yields the pairwise jobs; a run of the
program corresponds to some `order` that is a permutation of
`combinations2 closes`.  Results are collected in completion order,
stably sorted by p-value, and the first `top_n_pairs` are taken. -/
def analyze_pairs (cfg : Config) (coint : CointFn)
    (order : List (Column × Column)) : List PairRes × List PairRes :=
  let results := List.insertionSort pvLe (order.filterMap (collectStep cfg coint))
  (results, results.take cfg.top_n_pairs)

/-- The two fatal outcomes of the screening stage of `main` after the
aligned close matrix is built (lines 258-267). -/
inductive RunError : Type
  | insufficientColumns : RunError
  | noPairsFound : RunError
deriving DecidableEq, Repr

/-- One record of the CSV written for the top pairs (lines 270-277). -/
structure CsvRow where
  pairField : String
  pvalueField : String
  scoreField : String
deriving DecidableEq, Repr

/-- The decimal digit character for `n % 10`-style values. -/
def digitChar (n : ℕ) : Char :=
  match n with
  | 0 => '0' | 1 => '1' | 2 => '2' | 3 => '3' | 4 => '4'
  | 5 => '5' | 6 => '6' | 7 => '7' | 8 => '8' | _ => '9'

/-- Decimal digits of a natural number, most significant first; the first
argument is fuel (structural recursion so that concrete witnesses reduce
in the kernel). -/
def natDigitsAux : ℕ → ℕ → List Char
  | 0, n => [digitChar (n % 10)]
  | fuel + 1, n =>
    if n < 10 then [digitChar n]
    else natDigitsAux fuel (n / 10) ++ [digitChar (n % 10)]

/-- Decimal digits of a natural number, most significant first. -/
def natDigits (n : ℕ) : List Char := natDigitsAux n n

/-- Round-half-even (banker's rounding) of a nonnegative rational to an
integer, as used by Python's fixed-point float formatting. -/
def roundHalfEven (x : ℚ) : ℤ :=
  let n := Rat.floor x
  let frac := x - (n : ℚ)
  if frac < 1 / 2 then n
  else if 1 / 2 < frac then n + 1
  else if n % 2 = 0 then n else n + 1

/-- Model of Python's fixed-point formatting `f"{x:.df}"`: the value is
rounded half-even at the `d`-th decimal, and rendered with a sign, the
integer part, a point, and exactly `d` fractional digits (zero-padded on
the left).  For `d = 0` Python renders no decimal point. -/
def formatFixed (x : ℚ) (d : ℕ) : String :=
  let m := (roundHalfEven (|x| * 10 ^ d)).toNat
  let intDigits := natDigits (m / 10 ^ d)
  let fracDigits := natDigits (m % 10 ^ d)
  let padded := List.replicate (d - fracDigits.length) '0' ++ fracDigits
  let sign : List Char := if x < 0 then ['-'] else []
  if d = 0 then ⟨sign ++ intDigits⟩
  else ⟨sign ++ intDigits ++ '.' :: padded⟩

/-- Number of characters after the last `'.'` of a string (the whole
string when it has no point). -/
def decimalPlaces (s : String) : ℕ :=
  (s.data.reverse.takeWhile (fun c => !(c == '.'))).length

/-- Whether a string contains a decimal point. -/
def hasPoint (s : String) : Bool := s.data.contains '.'

/-- The CSV record built for one top pair (lines 272-276):
`{'Pair': f"{a}-{b}", 'P-Value': f"{p:.4f}", 'Score': f"{s:.2f}"}`. -/
def csvRow (r : PairRes) : CsvRow :=
  ⟨r.1 ++ "-" ++ r.2.1, formatFixed (pvalueOf r) 4, formatFixed (scoreOf r) 2⟩

/-- The screening stage of `main` from the aligned close matrix on
(lines 258-278): fail when fewer than 2 columns, run the analyzer, fail
when no pair survived, otherwise return the full list, the top pairs and
the CSV rows that are written. -/
def runScreening (cfg : Config) (coint : CointFn) (closes : List Column)
    (order : List (Column × Column)) :
    Except RunError (List PairRes × List PairRes × List CsvRow) :=
  if closes.length < 2 then .error .insufficientColumns
  else
    let ranked := analyze_pairs cfg coint order
    if ranked.2.isEmpty then .error .noPairsFound
    else .ok (ranked.1, ranked.2, ranked.2.map csvRow)

/-- Python's `str.upper()` (character-wise upper-casing; symbols and user
input here are ASCII). -/
def strUpper (s : String) : String := ⟨s.data.map Char.toUpper⟩

/-- Python's `str.strip()`: remove leading and trailing whitespace. -/
def strStrip (s : String) : String :=
  ⟨((s.data.dropWhile Char.isWhitespace).reverse.dropWhile Char.isWhitespace).reverse⟩

/-- `sym.split('/')[0]`: the part of a symbol before its quote-currency
separator (the whole symbol when there is no separator). -/
def symbolRoot (s : String) : String := ⟨s.data.takeWhile (fun c => !(c == '/'))⟩

/-- The interactive lookup (lines 282, 293-296): the raw input is
stripped and upper-cased, and a result matches when either leg's root
equals the processed input, preserving the order of `all_pairs`. -/
def findBySymbol (all_pairs : List PairRes) (rawInput : String) : List PairRes :=
  let selected := strUpper (strStrip rawInput)
  all_pairs.filter (fun p => symbolRoot p.1 == selected || symbolRoot p.2.1 == selected)

/-- Modelled from the spec: `findBySymbol` as §4.4 words it — a pair
matches when either leg's symbol, once its quote-currency suffix is
stripped, equals the root exactly and case-insensitively (equality of
upper-casings). -/
def findBySymbolSpec (all_pairs : List PairRes) (rawInput : String) : List PairRes :=
  let root := strStrip rawInput
  all_pairs.filter (fun p =>
    strUpper (symbolRoot p.1) == strUpper root || strUpper (symbolRoot p.2.1) == strUpper root)

/-- One line printed by the lookup loop (lines 291 and 301):
`f"{a} - {b}: p-value={p:.4f}, score={s:.2f}"`. -/
def queryLine (r : PairRes) : String :=
  r.1 ++ " - " ++ r.2.1 ++ ": p-value=" ++ formatFixed (pvalueOf r) 4 ++
    ", score=" ++ formatFixed (scoreOf r) 2

/-! ### Shared helper lemmas -/

theorem mem_combinations2 {α : Type} {l : List α} {p : α × α}
    (h : p ∈ combinations2 l) : p.1 ∈ l ∧ p.2 ∈ l := by
  induction l with
  | nil => simp [combinations2] at h
  | cons x xs ih =>
    simp only [combinations2, List.mem_append, List.mem_map] at h
    rcases h with ⟨y, hy, rfl⟩ | h
    · exact ⟨List.mem_cons_self x xs, List.mem_cons_of_mem x hy⟩
    · rcases ih h with ⟨h1, h2⟩
      exact ⟨List.mem_cons_of_mem x h1, List.mem_cons_of_mem x h2⟩

theorem key_inj {l : List Column} (h : (l.map Prod.fst).Nodup)
    {a : String} {b c : List ℚ} (hb : (a, b) ∈ l) (hc : (a, c) ∈ l) : b = c := by
  induction l with
  | nil => simp at hb
  | cons x xs ih =>
    simp only [List.map_cons, List.nodup_cons] at h
    rcases List.mem_cons.mp hb with hbx | hb'
    · rcases List.mem_cons.mp hc with hcx | hc'
      · rw [← hbx] at hcx
        exact (Prod.mk.injEq .. ▸ hcx).2.symm
      · exact absurd (List.mem_map.mpr ⟨(a, c), hc', by rw [← hbx]⟩) h.1
    · rcases List.mem_cons.mp hc with hcx | hc'
      · exact absurd (List.mem_map.mpr ⟨(a, b), hb', by rw [← hcx]⟩) h.1
      · exact ih h.2 hb' hc'

theorem var_eq_zero_of_const {xs : List ℚ} {v : ℚ} (h : ∀ x ∈ xs, x = v) :
    var xs = 0 := by
  rcases xs with _ | ⟨y, ys⟩
  · simp [var, mean]
  · have hmean : mean (y :: ys) = v := by
      have hsum : (y :: ys).sum = (y :: ys).length • v :=
        List.sum_eq_card_nsmul _ v h
      have hne : (((y :: ys).length : ℕ) : ℚ) ≠ 0 := by
        simp only [List.length_cons, Nat.cast_add, Nat.cast_one]
        exact Nat.cast_add_one_ne_zero ys.length
      rw [mean, hsum, nsmul_eq_mul, mul_div_cancel_left₀ _ hne]
    have hzero : ((y :: ys).map (fun x => (x - mean (y :: ys)) ^ 2)).sum = 0 := by
      apply List.sum_eq_zero
      intro t ht
      rcases List.mem_map.mp ht with ⟨x, hx, rfl⟩
      rw [h x hx, hmean, sub_self]
      ring
    rw [var, hzero, zero_div]

theorem collectStep_eq_some_iff {cfg : Config} {coint : CointFn}
    {p : Column × Column} {r : PairRes} :
    collectStep cfg coint p = some r ↔
      ∃ score pvalue, calculate_cointegration cfg coint p.1.2 p.2.2 = some (score, pvalue) ∧
        pvalue < cfg.coint_threshold ∧ r = (p.1.1, p.2.1, pvalue, score) := by
  unfold collectStep
  rcases hcalc : calculate_cointegration cfg coint p.1.2 p.2.2 with _ | ⟨score, pvalue⟩
  · simp
  · by_cases hlt : pvalue < cfg.coint_threshold <;> (simp [hlt]; try aesop)

theorem mem_analyze_iff {cfg : Config} {coint : CointFn} {closes : List Column}
    {order : List (Column × Column)} (hperm : order.Perm (combinations2 closes))
    (r : PairRes) :
    r ∈ (analyze_pairs cfg coint order).1 ↔
      ∃ p ∈ combinations2 closes, collectStep cfg coint p = some r := by
  unfold analyze_pairs
  simp only [List.mem_insertionSort, List.mem_filterMap]
  constructor
  · rintro ⟨p, hp, he⟩
    exact ⟨p, hperm.mem_iff.mp hp, he⟩
  · rintro ⟨p, hp, he⟩
    exact ⟨p, hperm.mem_iff.mpr hp, he⟩

/-- A constant series makes `calculate_cointegration` return nothing: either
the length guard fires, or the variance guard does (its variance is 0). -/
theorem calculate_eq_none_left_const {cfg : Config} {coint : CointFn}
    {xs s2 : List ℚ} {v : ℚ} (h : ∀ x ∈ xs, x = v) :
    calculate_cointegration cfg coint xs s2 = none := by
  unfold calculate_cointegration
  by_cases hlen : xs.length < cfg.min_data_points ∨ s2.length < cfg.min_data_points
  · rw [if_pos hlen]
  · have hz : npIsCloseZero (var xs) = true := by
      rw [var_eq_zero_of_const h]
      decide
    rw [if_neg hlen]
    simp [hz]

theorem calculate_eq_none_right_const {cfg : Config} {coint : CointFn}
    {s1 xs : List ℚ} {v : ℚ} (h : ∀ x ∈ xs, x = v) :
    calculate_cointegration cfg coint s1 xs = none := by
  unfold calculate_cointegration
  by_cases hlen : s1.length < cfg.min_data_points ∨ xs.length < cfg.min_data_points
  · rw [if_pos hlen]
  · have hz : npIsCloseZero (var xs) = true := by
      rw [var_eq_zero_of_const h]
      decide
    rw [if_neg hlen]
    simp [hz]

/-! ### Concrete fixtures for witnesses and counterexamples -/

/-- A configuration differing from the defaults only in `min_data_points`,
so that short concrete series stay eligible. -/
def wCfg : Config := { min_data_points := 1 }

/-- A cointegration model that always succeeds with p-value 0.01, as the
deterministic library test does on identical input pairs. -/
def wCoint : CointFn := fun _ _ => .ok (2, mkRat 1 100)

/-- A cointegration model that always raises. -/
def wCointFail : CointFn := fun _ _ => .error "regression failed"

/-- Three columns holding the same (non-constant) series, so that every
pair of them receives identical inputs and hence identical p-values. -/
def wCloses : List Column := [("A", [0, 1]), ("B", [0, 1]), ("C", [0, 1])]

/-- The enumeration order of the pairs of `wCloses`. -/
def wPairs : List (Column × Column) := combinations2 wCloses

/-- A completion order in which the jobs finish in reverse enumeration
order. -/
def wOrderRev : List (Column × Column) := wPairs.reverse

/-! ### Claims -/

/-- C3: the TopPairs component returned by `analyze_pairs` is exactly the
first `top_n_pairs` elements of RankedResults — a prefix of length
`min (top_n_pairs) (length RankedResults)`; in particular, when the full
ranked list is no longer than `top_n_pairs`, TopPairs is the whole list. -/
theorem top_pairs_is_take_min (cfg : Config) (coint : CointFn)
    (order : List (Column × Column)) :
    (analyze_pairs cfg coint order).2 =
      (analyze_pairs cfg coint order).1.take cfg.top_n_pairs ∧
    (analyze_pairs cfg coint order).2.length =
      min cfg.top_n_pairs (analyze_pairs cfg coint order).1.length ∧
    ((analyze_pairs cfg coint order).1.length ≤ cfg.top_n_pairs →
      (analyze_pairs cfg coint order).2 = (analyze_pairs cfg coint order).1) ∧
    ∃ rest, (analyze_pairs cfg coint order).2 ++ rest = (analyze_pairs cfg coint order).1 :=
  ⟨rfl, List.length_take .., fun h => List.take_of_length_le h,
    ⟨(analyze_pairs cfg coint order).1.drop cfg.top_n_pairs, List.take_append_drop ..⟩⟩

/-- C3 witness: on a concrete run whose ranked list is shorter than the
top-K bound, TopPairs is the whole ranked list. -/
theorem top_pairs_is_take_min_witness :
    (analyze_pairs wCfg wCoint wPairs).1.length ≤ wCfg.top_n_pairs ∧
    (analyze_pairs wCfg wCoint wPairs).2 = (analyze_pairs wCfg wCoint wPairs).1 :=
  ⟨by decide, (top_pairs_is_take_min wCfg wCoint wPairs).2.2.1 (by decide)⟩

/-- C6: when the aligned matrix has fewer than 2 columns, the screening
stage fails with `insufficientColumns` — for every cointegration model and
every job order, so no pairwise work contributes — and produces no output
(the error outcome carries no results and no CSV rows). -/
theorem screening_fails_insufficient_columns (cfg : Config) (coint : CointFn)
    (closes : List Column) (order : List (Column × Column))
    (h : closes.length < 2) :
    runScreening cfg coint closes order = .error .insufficientColumns := by
  unfold runScreening
  rw [if_pos h]

/-- C6 witness: screening a concrete 1-column matrix fails with
`insufficientColumns`. -/
theorem screening_fails_insufficient_columns_witness :
    ([(("A" : String), [(0 : ℚ), 1])] : List Column).length < 2 ∧
    runScreening wCfg wCoint [("A", [0, 1])] [] = .error .insufficientColumns :=
  ⟨by decide, screening_fails_insufficient_columns wCfg wCoint [("A", [0, 1])] [] (by decide)⟩

/-- C10: invoked directly on a matrix with fewer than 2 columns,
`analyze_pairs` raises nothing and reports no error: it enumerates zero
pairs and returns two empty lists (the fewer-than-2-columns check lives
only in the caller). -/
theorem analyze_pairs_small_matrix_empty (cfg : Config) (coint : CointFn)
    (closes : List Column) (order : List (Column × Column))
    (h : closes.length < 2) (hperm : order.Perm (combinations2 closes)) :
    combinations2 closes = [] ∧ analyze_pairs cfg coint order = ([], []) := by
  have hnil : combinations2 closes = [] := by
    rcases closes with _ | ⟨x, xs⟩
    · rfl
    · rcases xs with _ | ⟨y, ys⟩
      · rfl
      · simp only [List.length_cons] at h
        omega
  have horder : order = [] := (hnil ▸ hperm).eq_nil
  subst horder
  exact ⟨hnil, by simp [analyze_pairs]⟩

/-- C10 witness: a concrete 1-column matrix enumerates zero pairs and the
engine returns two empty lists. -/
theorem analyze_pairs_small_matrix_empty_witness :
    combinations2 [(("A" : String), [(0 : ℚ), 1])] = [] ∧
    analyze_pairs wCfg wCoint [] = ([], []) :=
  analyze_pairs_small_matrix_empty wCfg wCoint [("A", [0, 1])] [] (by decide) (by decide)

/-- C4: a tuple appears in RankedResults exactly when it comes from an
enumerated pair whose cointegration test succeeded with a p-value strictly
below the threshold; and when no enumerated pair passes the threshold the
engine returns two empty lists as a normal value, not an error. -/
theorem ranked_mem_iff_passing (cfg : Config) (coint : CointFn)
    (closes : List Column) (order : List (Column × Column))
    (hperm : order.Perm (combinations2 closes)) :
    (∀ r : PairRes, r ∈ (analyze_pairs cfg coint order).1 ↔
      ∃ c1 c2, (c1, c2) ∈ combinations2 closes ∧
        ∃ score pvalue,
          calculate_cointegration cfg coint c1.2 c2.2 = some (score, pvalue) ∧
          pvalue < cfg.coint_threshold ∧ r = (c1.1, c2.1, pvalue, score)) ∧
    ((∀ c1 c2, (c1, c2) ∈ combinations2 closes →
        ∀ score pvalue,
          calculate_cointegration cfg coint c1.2 c2.2 = some (score, pvalue) →
          ¬ pvalue < cfg.coint_threshold) →
      analyze_pairs cfg coint order = ([], [])) := by
  constructor
  · intro r
    rw [mem_analyze_iff hperm]
    constructor
    · rintro ⟨⟨c1, c2⟩, hp, hstep⟩
      exact ⟨c1, c2, hp, collectStep_eq_some_iff.mp hstep⟩
    · rintro ⟨c1, c2, hp, hrest⟩
      exact ⟨(c1, c2), hp, collectStep_eq_some_iff.mpr hrest⟩
  · intro hall
    have hmap : order.filterMap (collectStep cfg coint) = [] := by
      apply List.filterMap_eq_nil_iff.mpr
      rintro ⟨c1, c2⟩ hp
      rcases hcalc : calculate_cointegration cfg coint c1.2 c2.2 with _ | ⟨score, pvalue⟩
      · simp [collectStep, hcalc]
      · have hnlt := hall c1 c2 (hperm.mem_iff.mp hp) score pvalue hcalc
        simp [collectStep, hcalc, hnlt]
    simp [analyze_pairs, hmap]

/-- C4 witness: with a model in which every pairwise test raises, a
concrete three-column run returns two empty lists as its normal value. -/
theorem ranked_mem_iff_passing_witness :
    wPairs.Perm (combinations2 wCloses) ∧
    analyze_pairs wCfg wCointFail wPairs = ([], []) :=
  ⟨by decide,
    (ranked_mem_iff_passing wCfg wCointFail wCloses wPairs (by decide)).2
      (by
        intro c1 c2 _ score pvalue hcalc
        have hnone : calculate_cointegration wCfg wCointFail c1.2 c2.2 = none := by
          unfold calculate_cointegration wCointFail
          split_ifs <;> rfl
        rw [hnone] at hcalc
        exact Option.noConfusion hcalc)⟩

/-- C5: a pair with a too-short series or an (approximately)
zero-variance series is skipped — `calculate_cointegration` returns
nothing, with no failure — and a constant column's symbol never appears
on either leg of any ranked result. -/
theorem ineligible_series_skipped (cfg : Config) (coint : CointFn) :
    (∀ series1 series2 : List ℚ,
      (series1.length < cfg.min_data_points ∨ series2.length < cfg.min_data_points ∨
        npIsCloseZero (var series1) = true ∨ npIsCloseZero (var series2) = true) →
      calculate_cointegration cfg coint series1 series2 = none) ∧
    (∀ (closes : List Column) (order : List (Column × Column)) (sym : String)
      (xs : List ℚ) (v : ℚ),
      order.Perm (combinations2 closes) → (closes.map Prod.fst).Nodup →
      (sym, xs) ∈ closes → (∀ x ∈ xs, x = v) →
      ∀ r ∈ (analyze_pairs cfg coint order).1, r.1 ≠ sym ∧ r.2.1 ≠ sym) := by
  constructor
  · intro s1 s2 h
    unfold calculate_cointegration
    by_cases hlen : s1.length < cfg.min_data_points ∨ s2.length < cfg.min_data_points
    · rw [if_pos hlen]
    · rw [if_neg hlen]
      rcases h with h | h | h | h
      · exact absurd (Or.inl h) hlen
      · exact absurd (Or.inr h) hlen
      · simp [h]
      · simp [h]
  · intro closes order sym xs v hperm hnodup hmem hconst r hr
    rcases (mem_analyze_iff hperm r).mp hr with ⟨⟨c1, c2⟩, hp, hstep⟩
    rcases collectStep_eq_some_iff.mp hstep with ⟨score, pvalue, hcalc, _, rfl⟩
    constructor
    · intro h1
      have hc1 : c1.1 = sym := h1
      have hc1mem : (c1.1, c1.2) ∈ closes := by
        rw [Prod.mk.eta]
        exact (mem_combinations2 hp).1
      rw [hc1] at hc1mem
      have hxs : c1.2 = xs := key_inj hnodup hc1mem hmem
      rw [hxs, calculate_eq_none_left_const hconst] at hcalc
      exact Option.noConfusion hcalc
    · intro h2
      have hc2 : c2.1 = sym := h2
      have hc2mem : (c2.1, c2.2) ∈ closes := by
        rw [Prod.mk.eta]
        exact (mem_combinations2 hp).2
      rw [hc2] at hc2mem
      have hxs : c2.2 = xs := key_inj hnodup hc2mem hmem
      rw [hxs, calculate_eq_none_right_const hconst] at hcalc
      exact Option.noConfusion hcalc

/-- A matrix with one constant column `K` next to two eligible ones. -/
def wConstCloses : List Column := [("A", [0, 1]), ("B", [0, 1]), ("K", [5, 5])]

/-- C5 witness: on a concrete matrix with a constant column `K`, the
surviving ranked result does not mention `K` on either leg. -/
theorem ineligible_series_skipped_witness :
    (("A", "B", mkRat 1 100, 2) : PairRes).1 ≠ "K" ∧
    (("A", "B", mkRat 1 100, 2) : PairRes).2.1 ≠ "K" :=
  (ineligible_series_skipped wCfg wCoint).2 wConstCloses (combinations2 wConstCloses)
    "K" [5, 5] 5 (by decide) (by decide) (by decide) (by decide)
    ("A", "B", mkRat 1 100, 2) (by decide)

/-- One direction of the batch-isolation argument for C9: a result not
coming from the distinguished pair transfers between two runs whose
cointegration outcomes agree away from that pair. -/
theorem mem_analyze_congr {cfg : Config} {f g : CointFn} {closes : List Column}
    {order1 order2 : List (Column × Column)} {p0 : Column × Column}
    (h1 : order1.Perm (combinations2 closes)) (h2 : order2.Perm (combinations2 closes))
    (hagree : ∀ q ∈ combinations2 closes, q ≠ p0 →
      calculate_cointegration cfg f q.1.2 q.2.2 = calculate_cointegration cfg g q.1.2 q.2.2)
    {r : PairRes} (hr : ¬(r.1 = p0.1.1 ∧ r.2.1 = p0.2.1))
    (hmem : r ∈ (analyze_pairs cfg f order1).1) :
    r ∈ (analyze_pairs cfg g order2).1 := by
  rcases (mem_analyze_iff h1 r).mp hmem with ⟨q, hq, hstep⟩
  rcases collectStep_eq_some_iff.mp hstep with ⟨score, pvalue, hcalc, hlt, hre⟩
  have hqne : q ≠ p0 := by
    rintro rfl
    apply hr
    rw [hre]
    exact ⟨rfl, rfl⟩
  have hcalc' : calculate_cointegration cfg g q.1.2 q.2.2 = some (score, pvalue) := by
    rw [← hagree q hq hqne]
    exact hcalc
  exact (mem_analyze_iff h2 r).mpr
    ⟨q, hq, collectStep_eq_some_iff.mpr ⟨score, pvalue, hcalc', hlt, hre⟩⟩

/-- C9: a raised exception inside one pairwise test is absorbed —
`calculate_cointegration` returns nothing instead of propagating it — and
one pair's failure never removes or adds any other pair's result in the
batch. -/
theorem pair_failure_isolated (cfg : Config) :
    (∀ (coint : CointFn) (series1 series2 : List ℚ) (e : String),
      coint series1 series2 = .error e →
      calculate_cointegration cfg coint series1 series2 = none) ∧
    (∀ (f g : CointFn) (closes : List Column)
      (order1 order2 : List (Column × Column)) (p0 : Column × Column),
      order1.Perm (combinations2 closes) → order2.Perm (combinations2 closes) →
      (∀ q ∈ combinations2 closes, q ≠ p0 →
        calculate_cointegration cfg f q.1.2 q.2.2 = calculate_cointegration cfg g q.1.2 q.2.2) →
      ∀ r : PairRes, ¬(r.1 = p0.1.1 ∧ r.2.1 = p0.2.1) →
        (r ∈ (analyze_pairs cfg f order1).1 ↔ r ∈ (analyze_pairs cfg g order2).1)) := by
  constructor
  · intro coint s1 s2 e he
    unfold calculate_cointegration
    split_ifs <;> try rfl
    rw [he]
  · intro f g closes order1 order2 p0 hp1 hp2 hagree r hr
    exact ⟨mem_analyze_congr hp1 hp2 hagree hr,
      mem_analyze_congr hp2 hp1 (fun q hq hne => (hagree q hq hne).symm) hr⟩

/-- Three columns with pairwise distinct series, to localise a failure. -/
def wIsoCloses : List Column := [("A", [0, 1]), ("B", [0, 2]), ("C", [0, 3])]

/-- The enumeration order of the pairs of `wIsoCloses`. -/
def wIsoOrder : List (Column × Column) := combinations2 wIsoCloses

/-- A cointegration model that raises exactly on the series of the pair
(A, B) of `wIsoCloses` and succeeds elsewhere. -/
def wCointIso : CointFn := fun s1 s2 =>
  if s1 = [0, 1] ∧ s2 = [0, 2] then .error "regression failed"
  else .ok (2, mkRat 1 100)

/-- C9 witness: on a concrete matrix, making the (A, B) job raise leaves
the membership of the (A, C) result unchanged. -/
theorem pair_failure_isolated_witness :
    ((("A", "C", mkRat 1 100, 2) : PairRes) ∈ (analyze_pairs wCfg wCoint wIsoOrder).1 ↔
      (("A", "C", mkRat 1 100, 2) : PairRes) ∈ (analyze_pairs wCfg wCointIso wIsoOrder).1) :=
  (pair_failure_isolated wCfg).2 wCoint wCointIso wIsoCloses wIsoOrder wIsoOrder
    (("A", [0, 1]), ("B", [0, 2])) (by decide) (by decide) (by decide)
    ("A", "C", mkRat 1 100, 2) (by decide)

/-- C1 counterexample: with tied p-values (three identical columns, so
the deterministic test gives every pair the same p-value) and a completion
order that differs from enumeration order, the ranking is not the stable
sort of the enumeration-ordered passing list — ties come out in completion
order instead. -/
theorem ranked_enumeration_stability_cex :
    wOrderRev.Perm (combinations2 wCloses) ∧
    (analyze_pairs wCfg wCoint wOrderRev).1 ≠
      List.insertionSort pvLe ((combinations2 wCloses).filterMap (collectStep wCfg wCoint)) := by
  decide

/-- C1 (amended): RankedResults is sorted non-decreasing by p-value, and
the sort is stable over the list as collected in job-completion order (any
p-value-sorted subsequence of the collected list survives into the
ranking); ties therefore preserve enumeration order exactly when the jobs
complete in enumeration order, in which case the ranking is the stable
sort of the enumeration-ordered passing list. -/
theorem ranked_sorted_stable_completion (cfg : Config) (coint : CointFn)
    (closes : List Column) (order : List (Column × Column))
    (_hperm : order.Perm (combinations2 closes)) :
    (analyze_pairs cfg coint order).1.Sorted pvLe ∧
    (∀ c : List PairRes, c.Pairwise pvLe →
      c.Sublist (order.filterMap (collectStep cfg coint)) →
      c.Sublist (analyze_pairs cfg coint order).1) ∧
    (analyze_pairs cfg coint (combinations2 closes)).1 =
      List.insertionSort pvLe ((combinations2 closes).filterMap (collectStep cfg coint)) :=
  ⟨List.sorted_insertionSort pvLe _,
    fun _ hc hsub => List.sublist_insertionSort hc hsub, rfl⟩

/-- C1 witness: sortedness and completion-order stability at a concrete
run (reverse completion order over three tied pairs). -/
theorem ranked_sorted_stable_completion_witness :
    (analyze_pairs wCfg wCoint wOrderRev).1.Sorted pvLe :=
  (ranked_sorted_stable_completion wCfg wCoint wCloses wOrderRev (by decide)).1

/-- C2 counterexample: two runs on the identical matrix and configuration
whose parallel jobs complete in different orders (enumeration order versus
reverse order) produce different RankedResults orderings, because the tied
p-values keep their completion order. -/
theorem ranked_determinism_cex :
    wPairs.Perm (combinations2 wCloses) ∧
    wOrderRev.Perm (combinations2 wCloses) ∧
    (analyze_pairs wCfg wCoint wPairs).1 ≠ (analyze_pairs wCfg wCoint wOrderRev).1 := by
  decide

/-- C2 (amended): two runs on identical inputs always produce the same
multiset of results, both sorted by p-value, and they coincide whenever
the jobs complete in the same order; orderings can differ between runs
only in the relative order of equal-p-value results. -/
theorem ranked_order_independence_up_to_ties (cfg : Config) (coint : CointFn)
    (closes : List Column) (order1 order2 : List (Column × Column))
    (h1 : order1.Perm (combinations2 closes)) (h2 : order2.Perm (combinations2 closes)) :
    (analyze_pairs cfg coint order1).1.Perm (analyze_pairs cfg coint order2).1 ∧
    (analyze_pairs cfg coint order1).1.Sorted pvLe ∧
    (analyze_pairs cfg coint order2).1.Sorted pvLe ∧
    (order1 = order2 → analyze_pairs cfg coint order1 = analyze_pairs cfg coint order2) := by
  refine ⟨?_, List.sorted_insertionSort pvLe _, List.sorted_insertionSort pvLe _,
    fun h => by rw [h]⟩
  exact (List.perm_insertionSort pvLe (order1.filterMap (collectStep cfg coint))).trans
    (((h1.trans h2.symm).filterMap (collectStep cfg coint)).trans
      (List.perm_insertionSort pvLe (order2.filterMap (collectStep cfg coint))).symm)

/-- C2 witness: the two concrete runs of the counterexample still agree
as multisets of results. -/
theorem ranked_order_independence_up_to_ties_witness :
    (analyze_pairs wCfg wCoint wPairs).1.Perm (analyze_pairs wCfg wCoint wOrderRev).1 :=
  (ranked_order_independence_up_to_ties wCfg wCoint wCloses wPairs wOrderRev
    (by decide) (by decide)).1

/-- A ranked result whose first leg has a lower-case root. -/
def wLowerPair : PairRes := ("btc/USDT", "ETH/USDT", mkRat 1 100, 2)

/-- C7 counterexample: the lookup upper-cases only the query, so a symbol
whose root is lower-case is not returned even though it equals the query
root case-insensitively — the lookup is not the case-insensitive
subsequence the claim describes. -/
theorem find_by_symbol_case_cex :
    findBySymbol [wLowerPair] "BTC" = [] ∧
    findBySymbolSpec [wLowerPair] "BTC" = [wLowerPair] ∧
    findBySymbol [wLowerPair] "BTC" ≠ findBySymbolSpec [wLowerPair] "BTC" := by
  decide

/-- C7 (amended): the lookup returns the subsequence of RankedResults (in
order: it is a sublist) whose members have a leg root equal — exactly,
case-sensitively — to the stripped, upper-cased query; when every listed
root is already upper-case this coincides with the case-insensitive
matching of the spec. -/
theorem find_by_symbol_exact_upper (all_pairs : List PairRes) (rawInput : String) :
    (findBySymbol all_pairs rawInput).Sublist all_pairs ∧
    (∀ p : PairRes, p ∈ findBySymbol all_pairs rawInput ↔
      p ∈ all_pairs ∧ (symbolRoot p.1 = strUpper (strStrip rawInput) ∨
        symbolRoot p.2.1 = strUpper (strStrip rawInput))) ∧
    ((∀ p ∈ all_pairs, strUpper (symbolRoot p.1) = symbolRoot p.1 ∧
        strUpper (symbolRoot p.2.1) = symbolRoot p.2.1) →
      findBySymbol all_pairs rawInput = findBySymbolSpec all_pairs rawInput) := by
  refine ⟨List.filter_sublist _, ?_, ?_⟩
  · intro p
    simp [findBySymbol, List.mem_filter]
  · intro h
    unfold findBySymbol findBySymbolSpec
    apply List.filter_congr
    intro p hp
    rw [(h p hp).1, (h p hp).2]

/-- C7 witness: on upper-case roots the lookup agrees with the
case-insensitive specification, here for the query `" btc "`. -/
theorem find_by_symbol_exact_upper_witness :
    findBySymbol [(("BTC/USDT", "ETH/USDT", mkRat 1 100, 2) : PairRes)] " btc " =
      findBySymbolSpec [("BTC/USDT", "ETH/USDT", mkRat 1 100, 2)] " btc " :=
  (find_by_symbol_exact_upper [("BTC/USDT", "ETH/USDT", mkRat 1 100, 2)] " btc ").2.2
    (by decide)

/-! ### Formatting lemmas for C8 -/

theorem digitChar_ne_dot (n : ℕ) : digitChar n ≠ '.' := by
  unfold digitChar
  split <;> decide

theorem natDigitsAux_ne_dot : ∀ (fuel n : ℕ), ∀ c ∈ natDigitsAux fuel n, c ≠ '.' := by
  intro fuel
  induction fuel with
  | zero =>
    intro n c hc
    simp only [natDigitsAux, List.mem_singleton] at hc
    exact hc ▸ digitChar_ne_dot _
  | succ fuel ih =>
    intro n c hc
    by_cases h : n < 10
    · simp only [natDigitsAux, if_pos h, List.mem_singleton] at hc
      exact hc ▸ digitChar_ne_dot _
    · simp only [natDigitsAux, if_neg h, List.mem_append, List.mem_singleton] at hc
      rcases hc with hc | hc
      · exact ih (n / 10) c hc
      · exact hc ▸ digitChar_ne_dot _

theorem natDigitsAux_length_le : ∀ (fuel n d : ℕ), n < 10 ^ (d + 1) →
    (natDigitsAux fuel n).length ≤ d + 1 := by
  intro fuel
  induction fuel with
  | zero =>
    intro n d _
    simp [natDigitsAux]
  | succ fuel ih =>
    intro n d hn
    by_cases h : n < 10
    · simp [natDigitsAux, if_pos h]
    · rcases d with _ | d'
      · have h10 : (10 : ℕ) ^ (0 + 1) = 10 := by norm_num
        omega
      · simp only [natDigitsAux, if_neg h, List.length_append, List.length_singleton]
        have hdiv : n / 10 < 10 ^ (d' + 1) := by
          rw [Nat.div_lt_iff_lt_mul (by omega : 0 < 10)]
          have hpow : (10 : ℕ) ^ (d' + 1 + 1) = 10 ^ (d' + 1) * 10 := pow_succ 10 (d' + 1)
          omega
        have := ih (n / 10) d' hdiv
        omega

theorem takeWhile_append_of_all {p : Char → Bool} :
    ∀ {l1 l2 : List Char}, (∀ c ∈ l1, p c = true) →
      (l1 ++ l2).takeWhile p = l1 ++ l2.takeWhile p := by
  intro l1
  induction l1 with
  | nil =>
    intro l2 _
    simp
  | cons a l ih =>
    intro l2 h
    simp only [List.cons_append, List.takeWhile_cons]
    rw [h a (List.mem_cons_self a l), ih (fun c hc => h c (List.mem_cons_of_mem a hc))]
    simp

theorem decimalPlaces_shape (pre fracList : List Char)
    (hfrac : ∀ c ∈ fracList, c ≠ '.') :
    decimalPlaces ⟨pre ++ '.' :: fracList⟩ = fracList.length := by
  unfold decimalPlaces
  show ((pre ++ '.' :: fracList).reverse.takeWhile _).length = _
  rw [List.reverse_append, List.reverse_cons, List.append_assoc]
  rw [takeWhile_append_of_all (p := fun c => !(c == '.')) (fun c hc => ?_)]
  · rw [List.singleton_append, List.takeWhile_cons]
    simp
  · have := hfrac c (List.mem_reverse.mp hc)
    simp [this]

theorem formatFixed_decimals (x : ℚ) (d : ℕ) (hd : 1 ≤ d) :
    decimalPlaces (formatFixed x d) = d ∧ hasPoint (formatFixed x d) := by
  have hform : ∃ pre padded, formatFixed x d = ⟨pre ++ '.' :: padded⟩ ∧
      (∀ c ∈ padded, c ≠ '.') ∧ padded.length = d := by
    refine ⟨(if x < 0 then ['-'] else []) ++
        natDigits ((roundHalfEven (|x| * 10 ^ d)).toNat / 10 ^ d),
      List.replicate
          (d - (natDigits ((roundHalfEven (|x| * 10 ^ d)).toNat % 10 ^ d)).length) '0' ++
        natDigits ((roundHalfEven (|x| * 10 ^ d)).toNat % 10 ^ d), ?_, ?_, ?_⟩
    · simp only [formatFixed]
      rw [if_neg (by omega : ¬ d = 0), List.append_assoc]
    · intro c hc
      rcases List.mem_append.mp hc with hc | hc
      · rw [List.eq_of_mem_replicate hc]
        decide
      · exact natDigitsAux_ne_dot _ _ c hc
    · have hlt : (roundHalfEven (|x| * 10 ^ d)).toNat % 10 ^ d < 10 ^ d :=
        Nat.mod_lt _ (pow_pos (by omega : (0 : ℕ) < 10) d)
      obtain ⟨d', rfl⟩ : ∃ d', d = d' + 1 := ⟨d - 1, by omega⟩
      have hlen : (natDigits ((roundHalfEven (|x| * 10 ^ (d' + 1))).toNat % 10 ^ (d' + 1))).length ≤ d' + 1 :=
        natDigitsAux_length_le _ _ d' hlt
      simp only [List.length_append, List.length_replicate]
      omega
  rcases hform with ⟨pre, padded, heq, hfrac, hlen⟩
  rw [heq]
  refine ⟨by rw [decimalPlaces_shape pre padded hfrac, hlen], ?_⟩
  simp [hasPoint]

/-- C8: every batch CSV record comes from a top pair: its Pair field is
`"<symA>-<symB>"` and its P-Value and Score fields are the fixed-point
renderings with exactly 4 and exactly 2 digits after the decimal point;
and every interactive query line embeds the same 4-decimal p-value and
2-decimal score renderings. -/
theorem output_formatting_contract (cfg : Config) (coint : CointFn)
    (closes : List Column) (order : List (Column × Column))
    (allp top : List PairRes) (rows : List CsvRow)
    (h : runScreening cfg coint closes order = .ok (allp, top, rows)) :
    (∀ row ∈ rows, ∃ r, r ∈ top ∧ row = csvRow r ∧
      row.pairField = r.1 ++ "-" ++ r.2.1 ∧
      row.pvalueField = formatFixed (pvalueOf r) 4 ∧
      decimalPlaces row.pvalueField = 4 ∧ hasPoint row.pvalueField ∧
      row.scoreField = formatFixed (scoreOf r) 2 ∧
      decimalPlaces row.scoreField = 2 ∧ hasPoint row.scoreField) ∧
    (∀ r : PairRes,
      queryLine r = r.1 ++ " - " ++ r.2.1 ++ ": p-value=" ++
        formatFixed (pvalueOf r) 4 ++ ", score=" ++ formatFixed (scoreOf r) 2 ∧
      decimalPlaces (formatFixed (pvalueOf r) 4) = 4 ∧
      hasPoint (formatFixed (pvalueOf r) 4) ∧
      decimalPlaces (formatFixed (scoreOf r) 2) = 2 ∧
      hasPoint (formatFixed (scoreOf r) 2)) := by
  constructor
  · intro row hrow
    simp only [runScreening] at h
    split at h
    · exact absurd h (by simp)
    · split at h
      · exact absurd h (by simp)
      · rcases h with ⟨rfl, rfl, rfl⟩
        rcases List.mem_map.mp hrow with ⟨r, hr, rfl⟩
        exact ⟨r, hr, rfl, rfl, rfl,
          (formatFixed_decimals (pvalueOf r) 4 (by omega)).1,
          (formatFixed_decimals (pvalueOf r) 4 (by omega)).2, rfl,
          (formatFixed_decimals (scoreOf r) 2 (by omega)).1,
          (formatFixed_decimals (scoreOf r) 2 (by omega)).2⟩
  · intro r
    exact ⟨rfl,
      (formatFixed_decimals (pvalueOf r) 4 (by omega)).1,
      (formatFixed_decimals (pvalueOf r) 4 (by omega)).2,
      (formatFixed_decimals (scoreOf r) 2 (by omega)).1,
      (formatFixed_decimals (scoreOf r) 2 (by omega)).2⟩

/-- The ranked results of the concrete three-column run. -/
def wRanked : List PairRes :=
  [("A", "B", mkRat 1 100, 2), ("A", "C", mkRat 1 100, 2), ("B", "C", mkRat 1 100, 2)]

/-- The CSV rows written for that run. -/
def wRows : List CsvRow := wRanked.map csvRow

/-- C8 witness: the concrete run produces these rows, and the formatting
contract holds for them. -/
theorem output_formatting_contract_witness :
    runScreening wCfg wCoint wCloses wPairs = .ok (wRanked, wRanked, wRows) ∧
    (∀ row ∈ wRows, ∃ r, r ∈ wRanked ∧ row = csvRow r ∧
      row.pairField = r.1 ++ "-" ++ r.2.1 ∧
      row.pvalueField = formatFixed (pvalueOf r) 4 ∧
      decimalPlaces row.pvalueField = 4 ∧ hasPoint row.pvalueField ∧
      row.scoreField = formatFixed (scoreOf r) 2 ∧
      decimalPlaces row.scoreField = 2 ∧ hasPoint row.scoreField) :=
  ⟨by rfl,
    (output_formatting_contract wCfg wCoint wCloses wPairs wRanked wRanked wRows
      (by rfl)).1⟩

end PairsTrading
